import Mathlib

/-!
Verification of the DARIAH-DE/Topics notebook ("Advanced Topic Modeling: Part 1").

The notebook is a thin orchestration over the external `cophi` corpus library:
it loads a corpus from a directory (`cophi.corpus(directory=..., lowercase=True,
token_pattern="\p\x7bLetter\x7d+\p\x7bConnector_Punctuation\x7d?\p\x7bLetter\x7d+",
metadata=False)`), builds the document-term matrix (`corpus.dtm`), lists the
most frequent words (`corpus.mfw(100)`), and inspects hapax legomena
(`corpus.hapax`).  The `cophi` library itself is not part of this repository,
so its operations are modelled from the specification; the notebook's own
cell sequence (in particular the `stopwords = stopword` defect) is embedded
directly from the source.
-/

namespace Cophi

/-! ### Characters: letters, connector punctuation, lowercasing -/

/-- Modelled from the spec: the token pattern's `\p\x7bLetter\x7d` character
class ("sequences of letters"), modelled as the basic-latin letters. -/
def isLetterChar (c : Char) : Bool := c.isAlpha

/-- Modelled from the spec: the token pattern's `\p\x7bConnector_Punctuation\x7d`
class ("a single connector punctuation mark"), modelled as the underscore. -/
def isConnectorChar (c : Char) : Bool := c == '_'

/-- Modelled from the spec: the `lowercase` option normalizes case before
counting; one token is lowercased with `Char.toLower` on each character. -/
def lowerTok (t : String) : String := ⟨t.data.map Char.toLower⟩

/-! ### Tokenizer

Modelled from the spec: a token is a match of the pattern
`\p\x7bLetter\x7d+\p\x7bConnector_Punctuation\x7d?\p\x7bLetter\x7d+`
(one run of letters, optionally followed by a single connector character and a
second run of letters), matches found left to right, leftmost and greedy. -/

/-- Split a character list into its longest letter-run prefix and the rest. -/
def takeLetters : List Char → List Char × List Char
  | [] => ([], [])
  | c :: rest =>
    if isLetterChar c then
      let p := takeLetters rest
      (c :: p.1, p.2)
    else ([], c :: rest)

/-- One scanning step per unit of fuel: at a letter, take the letter run; a
run followed by a connector character and a second letter run forms a token
with the single connector inside; otherwise the run alone is a token when it
has at least two letters, and a lone single letter matches nothing; non-letter
characters are skipped. -/
def tokenizeFuel : Nat → List Char → List (List Char)
  | _, [] => []
  | 0, _ :: _ => []
  | fuel + 1, c :: rest =>
    if isLetterChar c then
      match (takeLetters (c :: rest)).2 with
      | d :: e :: r2 =>
        if isConnectorChar d && isLetterChar e then
          ((takeLetters (c :: rest)).1 ++ d :: (takeLetters (e :: r2)).1) ::
            tokenizeFuel fuel (takeLetters (e :: r2)).2
        else if 2 ≤ (takeLetters (c :: rest)).1.length then
          (takeLetters (c :: rest)).1 :: tokenizeFuel fuel (takeLetters (c :: rest)).2
        else tokenizeFuel fuel (takeLetters (c :: rest)).2
      | _ =>
        if 2 ≤ (takeLetters (c :: rest)).1.length then
          (takeLetters (c :: rest)).1 :: tokenizeFuel fuel (takeLetters (c :: rest)).2
        else tokenizeFuel fuel (takeLetters (c :: rest)).2
    else tokenizeFuel fuel rest

/-- Modelled from the spec: scan the text left to right for the leftmost,
greedy matches of the token pattern.  Every scanning step consumes at least
one character, so the text's length bounds the number of steps. -/
def tokenize (l : List Char) : List (List Char) := tokenizeFuel l.length l

/-- Tokenize a document's text into its token strings. -/
def tokenizeStr (s : String) : List String :=
  (tokenize s.data).map fun cs => ⟨cs⟩

/-! ### Corpus and document-term matrix -/

/-- A corpus: the ordered collection of documents, each an ordered sequence of
tokens (modelled from the spec's data model). -/
structure Corpus where
  docs : List (List String)
deriving DecidableEq

/-- All tokens of the corpus, in document order. -/
def allTokens (c : Corpus) : List String := c.docs.flatten

/-- Walk the list keeping each element not seen before, remembering the seen
elements in `seen`. -/
def firstSeenAux : List String → List String → List String
  | [], _ => []
  | x :: xs, seen =>
    if x ∈ seen then firstSeenAux xs seen else x :: firstSeenAux xs (x :: seen)

/-- The distinct elements of a list, each kept at its first occurrence
(first-seen order). -/
def firstSeen (l : List String) : List String := firstSeenAux l []

/-- The vocabulary: distinct terms of the corpus in first-seen order. -/
def vocab (c : Corpus) : List String := firstSeen (allTokens c)

/-- Total corpus-wide count of a term. -/
def totalCount (c : Corpus) (t : String) : Nat := (allTokens c).count t

/-- Modelled from the spec: one row of the document-term matrix, the sparse
association list mapping each term occurring in the document to its count;
terms not occurring in the document are absent. -/
def dtmRow (d : List String) : List (String × Nat) :=
  (firstSeen d).map fun t => (t, d.count t)

/-- Modelled from the spec: the document-term matrix (`corpus.dtm`), one sparse
row per document. -/
def dtm (c : Corpus) : List (List (String × Nat)) := c.docs.map dtmRow

/-- Sum of the stored counts of one matrix row. -/
def rowSum (r : List (String × Nat)) : Nat := (r.map Prod.snd).sum

/-- Sum of all stored counts of the matrix. -/
def matrixSum (c : Corpus) : Nat := ((dtm c).map rowSum).sum

/-! ### Frequency statistics: most frequent words and hapax legomena -/

/-- Error raised by the statistics operations. -/
inductive StatErr where
  | InvalidArgument
deriving DecidableEq

/-- The ordering used to rank terms: by strictly greater total count, with
ties broken by earlier first-seen position in the vocabulary. -/
def mfwRel (c : Corpus) (a b : String) : Prop :=
  totalCount c b < totalCount c a ∨
    (totalCount c a = totalCount c b ∧ (vocab c).indexOf a ≤ (vocab c).indexOf b)

instance mfwRelDecidable (c : Corpus) : DecidableRel (mfwRel c) := fun _ _ => by
  unfold mfwRel
  infer_instance

instance mfwRelTotal (c : Corpus) : IsTotal String (mfwRel c) where
  total a b := by
    unfold mfwRel
    rcases Nat.lt_trichotomy (totalCount c a) (totalCount c b) with h | h | h
    · exact Or.inr (Or.inl h)
    · rcases Nat.le_total ((vocab c).indexOf a) ((vocab c).indexOf b) with hi | hi
      · exact Or.inl (Or.inr ⟨h, hi⟩)
      · exact Or.inr (Or.inr ⟨h.symm, hi⟩)
    · exact Or.inl (Or.inl h)

instance mfwRelTrans (c : Corpus) : IsTrans String (mfwRel c) where
  trans a b d hab hbd := by
    unfold mfwRel at *
    rcases hab with h1 | ⟨h1, h1i⟩ <;> rcases hbd with h2 | ⟨h2, h2i⟩
    · exact Or.inl (h2.trans h1)
    · exact Or.inl (h2 ▸ h1)
    · exact Or.inl (h1 ▸ h2)
    · exact Or.inr ⟨h1.trans h2, h1i.trans h2i⟩

/-- The full frequency ranking: the vocabulary sorted by descending total
count, ties kept in first-seen order. -/
def mfwList (c : Corpus) : List String :=
  (vocab c).insertionSort (mfwRel c)

/-- Modelled from the spec: `most_frequent(n)` / `corpus.mfw(n)` returns the
top-`n` terms by total corpus-wide count and fails with `InvalidArgument` when
`n` is negative. -/
def mfw (c : Corpus) (n : Int) : Except StatErr (List String) :=
  if n < 0 then .error .InvalidArgument
  else .ok ((mfwList c).take n.toNat)

/-- Modelled from the spec: `corpus.hapax` returns the terms whose total
corpus-wide count is exactly 1. -/
def hapax (c : Corpus) : List String :=
  (vocab c).filter fun t => totalCount c t == 1

/-! ### Corpus loader -/

/-- A candidate file of the input directory: a name and, when the bytes decode
as text, its decoded content. -/
structure RawFile where
  name : String
  content : Option String
deriving DecidableEq

/-- Errors of the corpus loader. -/
inductive LoadErr where
  | NotFoundError
  | DecodeError
deriving DecidableEq

/-- Decode every file of the directory, failing if any file is unreadable. -/
def decodeFiles (files : List RawFile) : Option (List String) :=
  files.mapM (·.content)

/-- Modelled from the spec: `cophi.corpus(directory, lowercase, ...)` reads a
directory of text files (absent directory modelled as `none`), fails with
`NotFoundError` when the directory is missing or holds no eligible files and
with `DecodeError` when a file cannot be read as text, tokenizes each file
with the token pattern and optionally lowercases every token. -/
def corpus (directory : Option (List RawFile)) (lowercase : Bool) :
    Except LoadErr Corpus :=
  match directory with
  | none => .error .NotFoundError
  | some files =>
    if files.isEmpty then .error .NotFoundError
    else
      match decodeFiles files with
      | none => .error .DecodeError
      | some texts =>
        .ok ⟨texts.map fun s =>
          let ts := tokenizeStr s
          if lowercase then ts.map lowerTok else ts⟩

/-! ### Query model

The derived statistics read the corpus/matrix state and leave it unchanged;
a query step returns its output together with the state it leaves behind. -/

/-- A derived-statistics query against a loaded corpus. -/
inductive Query where
  | mfwQ (n : Int)
  | hapaxQ

/-- Output of a query. -/
inductive QueryOut where
  | terms (r : Except StatErr (List String))
  | termSet (ts : List String)

/-- Run one query against the corpus state, returning the output and the
state left behind: the statistics compute from the matrix without writing it. -/
def runQuery : Query → Corpus → QueryOut × Corpus
  | .mfwQ n, c => (.terms (mfw c n), c)
  | .hapaxQ, c => (.termSet (hapax c), c)

end Cophi

/-! ### The notebook's own cells

The notebook's sequence of top-level assignments, embedded from the source:
`import dariah, cophi`; `model, _ = dariah.topics(...)`;
`corpus = cophi.corpus(...)`; `dtm = corpus.dtm.fillna(0).astype(int)`;
`stopwords = corpus.mfw(100)`; then the cell `stopwords = stopword`. -/

namespace Notebook

/-- Python evaluation failure when a name is unbound. -/
inductive PyErr where
  | NameError
deriving DecidableEq

/-- The names bound at top level by the notebook's cells before the cell
`stopwords = stopword` runs, in assignment order (from the source). -/
def boundNames : List String :=
  ["dariah", "cophi", "model", "_", "corpus", "dtm", "stopwords"]

/-- Evaluating a bare name: the value is found iff the name was previously
assigned; otherwise the interpreter raises `NameError`. -/
def evalName (env : List String) (n : String) : Except PyErr Unit :=
  if n ∈ env then .ok () else .error .NameError

/-- Evaluating the right-hand side of the source statement
`stopwords = stopword` in the environment the notebook has built up. -/
def evalStopwordCell : Except PyErr Unit :=
  evalName boundNames "stopword"

end Notebook

namespace Cophi

/-- The spec's worked example corpus: `doc1` = "the cat sat", `doc2` =
"the dog sat". -/
def exCorpus : Corpus := ⟨[["the", "cat", "sat"], ["the", "dog", "sat"]]⟩

/-- A one-file example directory used to instantiate the loader theorems. -/
def exDir : List RawFile := [⟨"f1", some "The the cat"⟩]

end Cophi

namespace Cophi

theorem takeLetters_cons_of_letter {c : Char} (l : List Char)
    (hc : isLetterChar c = true) :
    takeLetters (c :: l) = (c :: (takeLetters l).1, (takeLetters l).2) := by
  simp [takeLetters, hc]

theorem takeLetters_fst_letters :
    ∀ (l : List Char), ∀ x ∈ (takeLetters l).1, isLetterChar x = true := by
  intro l
  induction l with
  | nil => intro x hx; simp [takeLetters] at hx
  | cons a as ih =>
    intro x hx
    by_cases ha : isLetterChar a
    · rw [takeLetters_cons_of_letter as ha] at hx
      rcases List.mem_cons.mp hx with h | h
      · subst h; exact ha
      · exact ih x h
    · simp [takeLetters, ha] at hx

theorem mem_firstSeenAux (t : String) :
    ∀ (l seen : List String), t ∈ firstSeenAux l seen ↔ t ∈ l ∧ t ∉ seen := by
  intro l
  induction l with
  | nil => intro seen; simp [firstSeenAux]
  | cons x xs ih =>
    intro seen
    by_cases hx : x ∈ seen
    · have hb : t = x → t ∈ seen := fun h => h ▸ hx
      simp only [firstSeenAux, if_pos hx, ih, List.mem_cons]
      tauto
    · have hb : t = x → t ∉ seen := fun h => h ▸ hx
      simp only [firstSeenAux, if_neg hx, List.mem_cons, ih]
      tauto

theorem nodup_firstSeenAux : ∀ (l seen : List String), (firstSeenAux l seen).Nodup := by
  intro l
  induction l with
  | nil => intro seen; simp [firstSeenAux]
  | cons x xs ih =>
    intro seen
    by_cases hx : x ∈ seen
    · rw [firstSeenAux, if_pos hx]; exact ih _
    · rw [firstSeenAux, if_neg hx]
      refine List.nodup_cons.mpr ⟨?_, ih _⟩
      intro hmem
      rcases (mem_firstSeenAux x xs _).mp hmem with ⟨_, h2⟩
      exact h2 (List.mem_cons_self _ _)

theorem mem_firstSeen (t : String) (l : List String) : t ∈ firstSeen l ↔ t ∈ l := by
  rw [firstSeen, mem_firstSeenAux]
  simp

theorem nodup_firstSeen (l : List String) : (firstSeen l).Nodup :=
  nodup_firstSeenAux l []

theorem toFinset_firstSeen (l : List String) : (firstSeen l).toFinset = l.toFinset := by
  ext a
  simp [List.mem_toFinset, mem_firstSeen]

theorem sum_counts_firstSeen (l : List String) :
    ((firstSeen l).map fun t => l.count t).sum = l.length := by
  rw [← List.sum_toFinset _ (nodup_firstSeen l), toFinset_firstSeen,
    List.sum_toFinset_count_eq_length]

theorem rowSum_dtmRow (d : List String) : rowSum (dtmRow d) = d.length := by
  rw [rowSum, dtmRow, List.map_map]
  have h : (Prod.snd ∘ fun t => (t, d.count t)) = fun t => d.count t := rfl
  rw [h, sum_counts_firstSeen]

/-- C1: for every corpus, the sum over all documents and all terms of the
entries of the document-term matrix equals the total number of tokens across
all documents, and for each single document the sum of that document's row
equals that document's token count. -/
theorem dtm_sum_eq_total_tokens (c : Corpus) :
    matrixSum c = (allTokens c).length ∧ ∀ d ∈ c.docs, rowSum (dtmRow d) = d.length := by
  constructor
  · rw [matrixSum, dtm, List.map_map, allTokens, List.length_flatten]
    have h : (rowSum ∘ dtmRow) = fun d : List String => d.length :=
      funext fun d => rowSum_dtmRow d
    rw [h]
  · intro d _
    exact rowSum_dtmRow d

/-- Witness for C1 at the spec's example corpus. -/
theorem dtm_sum_eq_total_tokens_witness :
    matrixSum exCorpus = (allTokens exCorpus).length ∧
      rowSum (dtmRow ["the", "cat", "sat"]) = 3 :=
  ⟨(dtm_sum_eq_total_tokens exCorpus).1,
   (dtm_sum_eq_total_tokens exCorpus).2 ["the", "cat", "sat"] (by decide)⟩

/-- C3: `hapax` returns exactly the terms whose total corpus-wide count is 1:
membership in the hapax set is equivalent to having total count exactly 1
(so no term of count 2 or more is returned). -/
theorem hapax_spec (c : Corpus) (t : String) : t ∈ hapax c ↔ totalCount c t = 1 := by
  rw [hapax, List.mem_filter, vocab, mem_firstSeen]
  constructor
  · intro ⟨_, h2⟩
    simpa using h2
  · intro h
    refine ⟨?_, by simp [h]⟩
    have : 0 < (allTokens c).count t := by rw [← totalCount, h]; exact Nat.one_pos
    exact List.count_pos_iff.mp this

/-- Witness for C3: evaluating the hapax set of the example corpus. -/
theorem hapax_spec_witness : totalCount exCorpus "cat" = 1 :=
  (hapax_spec exCorpus "cat").mp (by decide)

/-- C4: a negative argument to `mfw` yields the `InvalidArgument` error, no
result, and leaves the corpus state unchanged. -/
theorem mfw_neg_invalid (c : Corpus) (n : Int) (hn : n < 0) :
    mfw c n = .error .InvalidArgument ∧ (runQuery (.mfwQ n) c).2 = c := by
  constructor
  · rw [mfw, if_pos hn]
  · rfl

/-- Witness for C4 at the example corpus and `n = -1`. -/
theorem mfw_neg_invalid_witness :
    (-1 : Int) < 0 ∧
      (mfw exCorpus (-1) = .error .InvalidArgument ∧
        (runQuery (.mfwQ (-1)) exCorpus).2 = exCorpus) :=
  ⟨by decide, mfw_neg_invalid exCorpus (-1) (by decide)⟩

/-- C6: building the matrix is deterministic and idempotent (two builds from
the same corpus give identical tables), every derived query leaves the state
unchanged, and a query's output is unaffected by running another query
first. -/
theorem dtm_pure (c : Corpus) (q q2 : Query) :
    dtm c = dtm c ∧ (runQuery q c).2 = c ∧
      (runQuery q2 (runQuery q c).2).1 = (runQuery q2 c).1 := by
  refine ⟨rfl, ?_, ?_⟩ <;> cases q <;> rfl

/-- C8: in the notebook cell `stopwords = stopword`, the name `stopword` has
no prior assignment in scope, so evaluating the right-hand side raises
`NameError` instead of producing a value. -/
theorem stopword_unbound :
    Notebook.evalStopwordCell = .error .NameError ∧
      "stopword" ∉ Notebook.boundNames :=
  ⟨rfl, by decide⟩

theorem nodup_vocab (c : Corpus) : (vocab c).Nodup := nodup_firstSeen _

/-- C2: for a non-negative `n`, `mfw` returns exactly `min(n, |vocabulary|)`
terms, all from the vocabulary, ordered by descending total corpus-wide
count with ties broken by first-seen order (earlier vocabulary index
first). -/
theorem mfw_spec (c : Corpus) (n : Int) (hn : 0 ≤ n) :
    ∃ l, mfw c n = .ok l ∧
      l.length = min n.toNat (vocab c).length ∧
      (∀ t ∈ l, t ∈ vocab c) ∧
      l.Pairwise fun a b => totalCount c b ≤ totalCount c a ∧
        (totalCount c a = totalCount c b →
          (vocab c).indexOf a < (vocab c).indexOf b) := by
  refine ⟨(mfwList c).take n.toNat, ?_, ?_, ?_, ?_⟩
  · rw [mfw, if_neg (Int.not_lt.mpr hn)]
  · rw [List.length_take, mfwList, List.length_insertionSort]
  · intro t ht
    have h1 : t ∈ mfwList c := (List.take_sublist _ _).subset ht
    exact (List.mem_insertionSort _).mp h1
  · have hsorted : (mfwList c).Pairwise (mfwRel c) :=
      List.sorted_insertionSort (mfwRel c) (vocab c)
    have hnodup : (mfwList c).Nodup :=
      ((List.perm_insertionSort (mfwRel c) (vocab c)).nodup_iff).mpr (nodup_vocab c)
    have hp : ((mfwList c).take n.toNat).Pairwise fun a b => mfwRel c a b ∧ a ≠ b :=
      (hsorted.and hnodup).sublist (List.take_sublist _ _)
    refine hp.imp_of_mem ?_
    intro a b ha hb hab
    have hav : a ∈ vocab c :=
      (List.mem_insertionSort _).mp ((List.take_sublist _ _).subset ha)
    have hbv : b ∈ vocab c :=
      (List.mem_insertionSort _).mp ((List.take_sublist _ _).subset hb)
    obtain ⟨hr, hne⟩ := hab
    constructor
    · rcases hr with h | ⟨h, _⟩
      · exact Nat.le_of_lt h
      · exact Nat.le_of_eq h.symm
    · intro heq
      rcases hr with h | ⟨_, hle⟩
      · rw [heq] at h
        exact absurd h (Nat.lt_irrefl _)
      · exact Nat.lt_of_le_of_ne hle fun hidx => hne ((List.indexOf_inj hav hbv).mp hidx)

/-- Witness for C2 at the spec's example corpus with `n = 2`. -/
theorem mfw_spec_witness :
    (0 : Int) ≤ 2 ∧
      ∃ l, mfw exCorpus 2 = .ok l ∧
        l.length = min (2 : Int).toNat (vocab exCorpus).length ∧
        (∀ t ∈ l, t ∈ vocab exCorpus) ∧
        l.Pairwise fun a b => totalCount exCorpus b ≤ totalCount exCorpus a ∧
          (totalCount exCorpus a = totalCount exCorpus b →
            (vocab exCorpus).indexOf a < (vocab exCorpus).indexOf b) :=
  ⟨by decide, mfw_spec exCorpus 2 (by decide)⟩

theorem decodeFiles_eq_none {files : List RawFile}
    (h : ∃ f ∈ files, f.content = none) : decodeFiles files = none := by
  induction files with
  | nil => simp at h
  | cons f fs ih =>
    rcases h with ⟨g, hg, hgc⟩
    rcases List.mem_cons.mp hg with rfl | hgfs
    · rw [decodeFiles, List.mapM_cons, hgc]
      rfl
    · have hfs : decodeFiles fs = none := ih ⟨g, hgfs, hgc⟩
      rw [decodeFiles, List.mapM_cons]
      rw [decodeFiles] at hfs
      cases hc : f.content with
      | none => rfl
      | some s =>
        show (List.mapM (fun x => x.content) fs >>= fun xs => pure (s :: xs)) = none
        rw [hfs]
        rfl

/-- C5: the loader fails with `NotFoundError` exactly when the directory is
missing or empty, and fails with `DecodeError` when the directory is present
and non-empty but some file's bytes do not decode as text. -/
theorem corpus_load_errors (directory : Option (List RawFile)) (lc : Bool) :
    (corpus directory lc = .error .NotFoundError ↔
      directory = none ∨ directory = some []) ∧
    ∀ files, directory = some files → files ≠ [] →
      (∃ f ∈ files, f.content = none) →
      corpus directory lc = .error .DecodeError := by
  constructor
  · cases directory with
    | none => simp [corpus]
    | some files =>
      cases files with
      | nil => simp [corpus]
      | cons f fs =>
        simp only [corpus, List.isEmpty_cons, Bool.false_eq_true, if_false]
        cases hd : decodeFiles (f :: fs) with
        | none => simp
        | some texts => simp
  · rintro files rfl hne ⟨f, hf, hfc⟩
    have hd : decodeFiles files = none := decodeFiles_eq_none ⟨f, hf, hfc⟩
    cases files with
    | nil => exact absurd rfl hne
    | cons g gs => simp [corpus, hd]

/-- Witness for C5: a present undecodable file gives `DecodeError`; a missing
directory gives `NotFoundError`. -/
theorem corpus_load_errors_witness :
    corpus (some [⟨"f1", (none : Option String)⟩]) true = .error .DecodeError ∧
      corpus none true = .error .NotFoundError :=
  ⟨(corpus_load_errors (some [⟨"f1", none⟩]) true).2 [⟨"f1", none⟩] rfl
      (by decide) ⟨⟨"f1", none⟩, by decide, rfl⟩,
   (corpus_load_errors none true).1.mpr (Or.inl rfl)⟩

/-- C7: sparsity of the matrix: each document's row is part of the matrix,
every stored (term, count) entry has a positive count witnessed by an
occurrence of the term in the document, and a term never seen in the
document has no stored entry. -/
theorem dtm_sparse (c : Corpus) (d : List String) (hd : d ∈ c.docs) :
    dtmRow d ∈ dtm c ∧
      (∀ p ∈ dtmRow d, 0 < p.2 ∧ p.1 ∈ d) ∧
      ∀ t, t ∉ d → ∀ k, (t, k) ∉ dtmRow d := by
  refine ⟨List.mem_map_of_mem _ hd, ?_, ?_⟩
  · intro p hp
    rw [dtmRow] at hp
    rcases List.mem_map.mp hp with ⟨t, ht, rfl⟩
    have htd : t ∈ d := (mem_firstSeen t d).mp ht
    exact ⟨List.count_pos_iff.mpr htd, htd⟩
  · intro t htd k hmem
    rw [dtmRow] at hmem
    rcases List.mem_map.mp hmem with ⟨u, hu, huv⟩
    have hut : u = t := congrArg Prod.fst huv
    subst hut
    exact htd ((mem_firstSeen u d).mp hu)

/-- Witness for C7 at the first document of the example corpus. -/
theorem dtm_sparse_witness :
    ["the", "cat", "sat"] ∈ exCorpus.docs ∧
      (dtmRow ["the", "cat", "sat"] ∈ dtm exCorpus ∧
        (∀ p ∈ dtmRow ["the", "cat", "sat"], 0 < p.2 ∧ p.1 ∈ ["the", "cat", "sat"]) ∧
        ∀ t, t ∉ ["the", "cat", "sat"] → ∀ k, (t, k) ∉ dtmRow ["the", "cat", "sat"]) :=
  ⟨by decide, dtm_sparse exCorpus _ (by decide)⟩

theorem toLower_eq_self {c : Char} (h : ¬(65 ≤ c.toNat ∧ c.toNat ≤ 90)) :
    c.toLower = c := by
  show (if 65 ≤ c.toNat ∧ c.toNat ≤ 90 then Char.ofNat (c.toNat + 32) else c) = c
  rw [if_neg h]

theorem toLower_lower_range (c : Char) :
    c.toLower = c ∨ (97 ≤ c.toLower.toNat ∧ c.toLower.toNat ≤ 122) := by
  by_cases h : 65 ≤ c.toNat ∧ c.toNat ≤ 90
  · right
    have he : c.toLower = Char.ofNat (c.toNat + 32) := by
      show (if 65 ≤ c.toNat ∧ c.toNat ≤ 90 then Char.ofNat (c.toNat + 32) else c) = _
      rw [if_pos h]
    obtain ⟨h1, h2⟩ := h
    rw [he]
    revert h1 h2
    generalize c.toNat = n
    intro h1 h2
    interval_cases n <;> decide
  · left
    exact toLower_eq_self h

theorem toLower_idem (c : Char) : c.toLower.toLower = c.toLower := by
  rcases toLower_lower_range c with h | h
  · rw [h, h]
  · exact toLower_eq_self (by omega)

theorem lowerTok_idem (t : String) : lowerTok (lowerTok t) = lowerTok t := by
  show String.mk ((t.data.map Char.toLower).map Char.toLower) =
    String.mk (t.data.map Char.toLower)
  rw [List.map_map]
  exact congrArg String.mk (List.map_congr_left fun a _ => toLower_idem a)

theorem lowerTok_length (t : String) : (lowerTok t).length = t.length := by
  show (t.data.map Char.toLower).length = t.data.length
  exact List.length_map _ _

/-- Terms appearing in the vocabulary, hapax set, mfw results and matrix rows
are all tokens of the corpus. -/
theorem term_sources (c : Corpus) :
    (∀ u ∈ vocab c, u ∈ allTokens c) ∧
      (∀ u ∈ hapax c, u ∈ allTokens c) ∧
      (∀ n l, mfw c n = .ok l → ∀ u ∈ l, u ∈ allTokens c) ∧
      ∀ d ∈ dtm c, ∀ p ∈ d, p.1 ∈ allTokens c := by
  have hv : ∀ u ∈ vocab c, u ∈ allTokens c := fun u hu =>
    (mem_firstSeen u (allTokens c)).mp hu
  refine ⟨hv, ?_, ?_, ?_⟩
  · intro u hu
    exact hv u (List.mem_filter.mp hu).1
  · intro n l hl u hu
    by_cases hn : n < 0
    · rw [mfw, if_pos hn] at hl
      exact absurd hl (by simp)
    · rw [mfw, if_neg hn] at hl
      have hl2 : l = (mfwList c).take n.toNat := by
        injection hl.symm
      subst hl2
      have h1 : u ∈ mfwList c := (List.take_sublist _ _).subset hu
      exact hv u ((List.mem_insertionSort _).mp h1)
  · intro d hd p hp
    rcases List.mem_map.mp hd with ⟨doc, hdoc, rfl⟩
    rcases List.mem_map.mp hp with ⟨t, ht, rfl⟩
    exact List.mem_flatten_of_mem hdoc ((mem_firstSeen t doc).mp ht)

/-- Every token of a successfully loaded corpus is a tokenizer output,
lowercased when the `lowercase` option is on. -/
theorem corpus_ok_tokens {directory : Option (List RawFile)} {lc : Bool}
    {c : Corpus} (hc : corpus directory lc = .ok c) :
    ∀ u ∈ allTokens c, ∃ s cs, cs ∈ tokenize (String.data s) ∧
      (u = ⟨cs⟩ ∨ u = lowerTok ⟨cs⟩) := by
  cases directory with
  | none => exact absurd hc (by simp [corpus])
  | some files =>
    rw [corpus] at hc
    by_cases hf : files.isEmpty
    · rw [if_pos hf] at hc
      exact absurd hc (by simp)
    · rw [if_neg hf] at hc
      cases hd : decodeFiles files with
      | none =>
        rw [hd] at hc
        exact absurd hc (by simp)
      | some texts =>
        rw [hd] at hc
        have hdocs : c.docs = texts.map fun s =>
            let ts := tokenizeStr s
            if lc then ts.map lowerTok else ts := by
          injection hc.symm with h
          rw [h]
        intro u hu
        rw [allTokens, hdocs] at hu
        rcases List.mem_flatten.mp hu with ⟨doc, hdoc, hud⟩
        rcases List.mem_map.mp hdoc with ⟨s, _, rfl⟩
        cases lc with
        | false =>
          simp only [if_false] at hud
          rcases List.mem_map.mp hud with ⟨cs, hcs, rfl⟩
          exact ⟨s, cs, hcs, Or.inl rfl⟩
        | true =>
          simp only [if_true] at hud
          rcases List.mem_map.mp hud with ⟨v, hv, rfl⟩
          rcases List.mem_map.mp hv with ⟨cs, hcs, rfl⟩
          exact ⟨s, cs, hcs, Or.inr rfl⟩

/-- C9: with the lowercase option on, every token is lowercased before
counting: the loaded documents are the lowercased forms of the documents of
the corresponding non-lowercased load, the count of a term `u` totals the raw
tokens whose lowercase form is `u` (so tokens differing only in case are
counted as the same term), and every term of the vocabulary, hapax set,
frequency ranking and matrix is fixed by lowercasing. -/
theorem lowercase_normalizes (directory : Option (List RawFile)) (c0 c1 : Corpus)
    (h0 : corpus directory false = .ok c0) (h1 : corpus directory true = .ok c1) :
    c1.docs = c0.docs.map (List.map lowerTok) ∧
      (∀ u, totalCount c1 u = (allTokens c0).countP fun t => lowerTok t == u) ∧
      (∀ t ∈ vocab c1, lowerTok t = t) ∧
      (∀ t ∈ hapax c1, lowerTok t = t) ∧
      (∀ n l, mfw c1 n = .ok l → ∀ t ∈ l, lowerTok t = t) ∧
      ∀ d ∈ dtm c1, ∀ p ∈ d, lowerTok p.1 = p.1 := by
  cases directory with
  | none => exact absurd h0 (by simp [corpus])
  | some files =>
    rw [corpus] at h0 h1
    by_cases hf : files.isEmpty
    · rw [if_pos hf] at h0
      exact absurd h0 (by simp)
    · rw [if_neg hf] at h0 h1
      cases hd : decodeFiles files with
      | none =>
        rw [hd] at h0
        exact absurd h0 (by simp)
      | some texts =>
        rw [hd] at h0 h1
        have hc0 : c0.docs = texts.map tokenizeStr := by
          injection h0.symm with h
          rw [h]
          rfl
        have hc1 : c1.docs = texts.map fun s => (tokenizeStr s).map lowerTok := by
          injection h1.symm with h
          rw [h]
          rfl
        have hat : allTokens c1 = (allTokens c0).map lowerTok := by
          rw [allTokens, allTokens, hc0, hc1, List.map_flatten, List.map_map]
          rfl
        have hlow : ∀ t ∈ allTokens c1, lowerTok t = t := by
          intro t ht
          rw [hat] at ht
          rcases List.mem_map.mp ht with ⟨s, _, rfl⟩
          exact lowerTok_idem s
        obtain ⟨hv, hh, hm, hd2⟩ := term_sources c1
        refine ⟨?_, ?_, ?_, ?_, ?_, ?_⟩
        · rw [hc0, hc1, List.map_map]
          rfl
        · intro u
          rw [totalCount, hat, List.count_eq_countP, List.countP_map]
          rfl
        · exact fun t ht => hlow t (hv t ht)
        · exact fun t ht => hlow t (hh t ht)
        · exact fun n l hl t ht => hlow t (hm n l hl t ht)
        · exact fun d hd p hp => hlow p.1 (hd2 d hd p hp)

/-- Witness for C9 at the one-file example directory. -/
theorem lowercase_normalizes_witness :
    corpus (some exDir) false = .ok ⟨[["The", "the", "cat"]]⟩ ∧
      corpus (some exDir) true = .ok ⟨[["the", "the", "cat"]]⟩ ∧
      ((⟨[["the", "the", "cat"]]⟩ : Corpus).docs =
          (⟨[["The", "the", "cat"]]⟩ : Corpus).docs.map (List.map lowerTok) ∧
        (∀ u, totalCount (⟨[["the", "the", "cat"]]⟩ : Corpus) u =
          (allTokens (⟨[["The", "the", "cat"]]⟩ : Corpus)).countP
            fun t => lowerTok t == u) ∧
        (∀ t ∈ vocab (⟨[["the", "the", "cat"]]⟩ : Corpus), lowerTok t = t) ∧
        (∀ t ∈ hapax (⟨[["the", "the", "cat"]]⟩ : Corpus), lowerTok t = t) ∧
        (∀ n l, mfw (⟨[["the", "the", "cat"]]⟩ : Corpus) n = .ok l →
          ∀ t ∈ l, lowerTok t = t) ∧
        ∀ d ∈ dtm (⟨[["the", "the", "cat"]]⟩ : Corpus), ∀ p ∈ d,
          lowerTok p.1 = p.1) :=
  ⟨rfl, rfl, lowercase_normalizes (some exDir) _ _ rfl rfl⟩

theorem filter_takeLetters_fst (l : List Char) :
    (takeLetters l).1.filter isLetterChar = (takeLetters l).1 :=
  List.filter_eq_self.mpr (takeLetters_fst_letters l)

theorem tokenizeFuel_letters :
    ∀ (fuel : Nat) (s : List Char), ∀ t ∈ tokenizeFuel fuel s,
      2 ≤ (t.filter isLetterChar).length := by
  intro fuel
  induction fuel with
  | zero =>
    intro s t ht
    cases s <;> simp [tokenizeFuel] at ht
  | succ fuel ih =>
    intro s t ht
    cases s with
    | nil => simp [tokenizeFuel] at ht
    | cons c rest =>
      rw [tokenizeFuel] at ht
      by_cases hc : isLetterChar c
      · rw [if_pos hc] at ht
        have hcommon : ∀ rest2 : List Char,
            t ∈ (if 2 ≤ (takeLetters (c :: rest)).1.length
                 then (takeLetters (c :: rest)).1 :: tokenizeFuel fuel rest2
                 else tokenizeFuel fuel rest2) →
            2 ≤ (t.filter isLetterChar).length := by
          intro rest2 hmem
          by_cases hl2 : 2 ≤ (takeLetters (c :: rest)).1.length
          · rw [if_pos hl2] at hmem
            rcases List.mem_cons.mp hmem with rfl | hrec
            · rw [filter_takeLetters_fst]
              exact hl2
            · exact ih _ t hrec
          · rw [if_neg hl2] at hmem
            exact ih _ t hmem
        split at ht
        next d e r2 heq =>
          by_cases hcon : isConnectorChar d && isLetterChar e
          · rw [if_pos hcon] at ht
            rcases List.mem_cons.mp ht with rfl | hrec
            · have he : isLetterChar e = true := by
                simp only [Bool.and_eq_true] at hcon
                exact hcon.2
              rw [List.filter_append, List.length_append, filter_takeLetters_fst]
              have hp1 : (takeLetters (c :: rest)).1 = c :: (takeLetters rest).1 := by
                rw [takeLetters_cons_of_letter rest hc]
              have hq1 : (takeLetters (e :: r2)).1 = e :: (takeLetters r2).1 := by
                rw [takeLetters_cons_of_letter r2 he]
              have hlen1 : 1 ≤ (takeLetters (c :: rest)).1.length := by
                rw [hp1]
                simp
              have hlen2 :
                  1 ≤ ((d :: (takeLetters (e :: r2)).1).filter isLetterChar).length := by
                rw [List.filter_cons]
                by_cases hdl : isLetterChar d
                · rw [if_pos hdl]
                  simp
                · rw [if_neg hdl, filter_takeLetters_fst, hq1]
                  simp
              omega
            · exact ih _ t hrec
          · rw [if_neg hcon] at ht
            exact hcommon _ ht
        all_goals exact hcommon _ ht
      · rw [if_neg hc] at ht
        exact ih _ t ht

/-- C10: every token matched by the source's token pattern contains at least
two letters, so no single-character term ever appears in the vocabulary, the
document-term matrix, the most-frequent list or the hapax set of a loaded
corpus. -/
theorem token_min_two_letters :
    (∀ (s : List Char), ∀ t ∈ tokenize s, 2 ≤ (t.filter isLetterChar).length) ∧
      ∀ (directory : Option (List RawFile)) (lc : Bool) (c : Corpus),
        corpus directory lc = .ok c →
        (∀ u ∈ vocab c, u.length ≠ 1) ∧
        (∀ u ∈ hapax c, u.length ≠ 1) ∧
        (∀ n l, mfw c n = .ok l → ∀ u ∈ l, u.length ≠ 1) ∧
        ∀ d ∈ dtm c, ∀ p ∈ d, p.1.length ≠ 1 := by
  have htok : ∀ (s : List Char), ∀ t ∈ tokenize s, 2 ≤ (t.filter isLetterChar).length :=
    fun s t ht => tokenizeFuel_letters s.length s t ht
  refine ⟨htok, ?_⟩
  intro directory lc c hc
  have hall : ∀ u ∈ allTokens c, u.length ≠ 1 := by
    intro u hu
    rcases corpus_ok_tokens hc u hu with ⟨s, cs, hcs, hu2⟩
    have h2 : 2 ≤ cs.length :=
      le_trans (htok _ cs hcs) (List.length_filter_le _ _)
    have hlen : u.length = cs.length := by
      rcases hu2 with rfl | rfl
      · rfl
      · rw [lowerTok_length]
        rfl
    omega
  obtain ⟨hv, hh, hm, hd2⟩ := term_sources c
  exact ⟨fun u hu => hall u (hv u hu), fun u hu => hall u (hh u hu),
    fun n l hl u hu => hall u (hm n l hl u hu),
    fun d hd p hp => hall p.1 (hd2 d hd p hp)⟩

/-- Witness for C10: a concrete tokenization and a concrete loaded corpus. -/
theorem token_min_two_letters_witness :
    2 ≤ ((['t', 'h', 'e'] : List Char).filter isLetterChar).length ∧
      "the".length ≠ 1 :=
  ⟨token_min_two_letters.1 "the cat".data ['t', 'h', 'e'] (by decide),
   (token_min_two_letters.2 (some exDir) true ⟨[["the", "the", "cat"]]⟩ rfl).1
     "the" (by decide)⟩

end Cophi
